import Mathlib

/-!
Verification of the ε-NFA → NFA → DFA conversion core of `NFA_DFA.py`.

The embedding mirrors the Python source:
* Python `dict`s keyed by `(state, symbol)` pairs become association lists
  (`dictGet` finds the most recent binding; assignment prepends, which shadows).
* Python `set`s become `Finset String`; the union accumulated by iterating over
  a set becomes `Finset.sup` (iteration order of a Python set is unspecified,
  and the union does not depend on it).
* The two `while` loops carry an explicit fuel argument so that the recursion
  is structural; the fuel chosen in the wrappers is proven sufficient (the
  truncation branch is never reached), which is exactly the termination
  argument of the source loops.
-/

abbrev St := String
abbrev Symb := String

/-- Lexicographic code-point order on identifiers, as used by Python's
`sorted` on strings.  Stated on the underlying character list (`String.data`)
so that sorting evaluates by kernel reduction. -/
def strLe (a b : String) : Prop := a.data ≤ b.data

instance : DecidableRel strLe := fun a b => inferInstanceAs (Decidable (a.data ≤ b.data))

instance : IsTrans String strLe := ⟨fun _ _ _ h1 h2 => le_trans h1 h2⟩

instance : IsAntisymm String strLe := ⟨fun a b h1 h2 => by
  cases a; cases b; exact congrArg String.mk (le_antisymm h1 h2)⟩

instance : IsTotal String strLe := ⟨fun a b => le_total a.data b.data⟩

/-- The elements of a finite set of identifiers in ascending `strLe` order:
Python's `sorted(S)`. -/
def sortedList (s : Finset String) : List String :=
  Quot.liftOn s.val (fun l => l.insertionSort strLe) (fun a b h => by
    refine List.eq_of_perm_of_sorted ?_ (List.sorted_insertionSort _ _)
      (List.sorted_insertionSort _ _)
    exact (List.perm_insertionSort _ a).trans
      ((Quotient.exact (Quot.sound h)).trans (List.perm_insertionSort _ b).symm))

/-- Association-list rendering of a Python `dict`: lookup of the most recent
binding (assignments prepend, so the head binding shadows older ones). -/
def dictGet {κ α : Type} [DecidableEq κ] : List (κ × α) → κ → Option α
  | [], _ => none
  | (k', v) :: rest, k => if k' = k then some v else dictGet rest k

/-- Python `d.get(k, set())`. -/
def dictGetD {κ : Type} [DecidableEq κ] (d : List (κ × Finset St)) (k : κ) : Finset St :=
  (dictGet d k).getD ∅

/-- Transition dictionary of an (ε-)NFA: `(state, symbol) ↦ set of states`. -/
abbrev TMap := List ((St × Symb) × Finset St)

/-- Transition dictionary of the DFA: `(composite state, symbol) ↦ composite state`. -/
abbrev DMap := List ((Finset St × Symb) × Finset St)

/-- Union of all destination sets stored in a transition dictionary; bounds
the states the closure loop can ever add, hence bounds its fuel. -/
def allTargets (d : TMap) : Finset St :=
  d.foldr (fun p acc => p.2 ∪ acc) ∅

/-- Loop body of `epsilon_closure_of` (lines 13-18): pop a state, push its
unvisited ε-successors, add them to the closure.  The Python `while` loop
becomes structural recursion on `fuel`; the set being iterated is consumed in
sorted order (Python's set iteration order is unspecified, and the resulting
closure set does not depend on it). -/
def closureGo (enfa : TMap) : Nat → List St → Finset St → Finset St
  | _, [], closure => closure
  | 0, _ :: _, closure => closure
  | fuel + 1, s :: rest, closure =>
      let new := (dictGetD enfa (s, "ε")).filter (fun nxt => nxt ∉ closure)
      closureGo enfa fuel (sortedList new ++ rest) (closure ∪ new)

/-- `epsilon_closure_of(state, enfa)` (lines 10-19).  The fuel
`(allTargets enfa).card + 1` is sufficient: each iteration either pops a
stack entry for good or adds at least one new state to the closure. -/
def epsilon_closure_of (state : St) (enfa : TMap) : Finset St :=
  closureGo enfa ((allTargets enfa).card + 1) [state] {state}

/-- `move = ⋃_{c ∈ cls s} enfa.get((c, a), ∅)` (lines 31-33). -/
def moveOf (enfa : TMap) (cls : St → Finset St) (s : St) (a : Symb) : Finset St :=
  (cls s).sup (fun c => dictGetD enfa (c, a))

/-- `dest = ⋃_{m ∈ move} cls m` (lines 35-37): the second closure pass. -/
def destOf (enfa : TMap) (cls : St → Finset St) (s : St) (a : Symb) : Finset St :=
  (moveOf enfa cls s a).sup cls

/-- Body of the inner `for a in alphabet` loop of `remove_epsilon`
(lines 28-38): skip ε, and record `dest` when `move` is non-empty. -/
def symStep (enfa : TMap) (cls : St → Finset St) (s : St) (t : TMap) (a : Symb) : TMap :=
  if a = "ε" then t
  else if (moveOf enfa cls s a).Nonempty then ((s, a), destOf enfa cls s a) :: t
  else t

/-- Body of the outer `for s in states` loop of `remove_epsilon`
(lines 25-38): mark `s` final when its closure meets `final_states`, and run
the symbol loop. -/
def stateStep (enfa : TMap) (cls : St → Finset St) (alphabet : List Symb)
    (final_states : List St) (acc : TMap × Finset St) (s : St) : TMap × Finset St :=
  (alphabet.foldl (symStep enfa cls s) acc.1,
   if ∃ f ∈ final_states, f ∈ cls s then insert s acc.2 else acc.2)

/-- `remove_epsilon(states, alphabet, enfa, start_state, final_states)`
(lines 21-39), returning `(closures, nfa_no_e, nfa_finals)`.  The Python
`closures` dict over `states` is modelled as the total function
`fun s => epsilon_closure_of s enfa`; the source only ever looks it up at
members of `states` (for valid automata, all `move` elements are declared
states). -/
def remove_epsilon (states : List St) (alphabet : List Symb) (enfa : TMap)
    (start_state : St) (final_states : List St) :
    (St → Finset St) × TMap × Finset St :=
  let closures : St → Finset St := fun s => epsilon_closure_of s enfa
  let r := states.foldl (stateStep enfa closures alphabet final_states) ([], ∅)
  (closures, r.1, r.2)

/-- Body of the `for a in alphabet` loop of `nfa_to_dfa` (lines 49-60):
`nxt = ⋃_{s ∈ S} nfa_no_e.get((s, a), ∅)`; when non-empty, record the
transition and append `nxt` to the discovered list and the worklist unless an
equal composite state was already discovered. -/
def dfaSymStep (nfa_no_e : TMap) (S : Finset St)
    (acc : List (Finset St) × List (Finset St) × DMap) (a : Symb) :
    List (Finset St) × List (Finset St) × DMap :=
  if a = "ε" then acc
  else
    let nxt := S.sup (fun s => dictGetD nfa_no_e (s, a))
    if nxt.Nonempty then
      let tr := ((S, a), nxt) :: acc.2.2
      if nxt ∈ acc.1 then (acc.1, acc.2.1, tr)
      else (acc.1 ++ [nxt], nxt :: acc.2.1, tr)
    else acc

/-- Worklist loop of `nfa_to_dfa` (lines 47-60).  Python's
`unmarked.pop()` removes the LAST element, so the worklist is a stack; it is
represented here with its top at the head (`push = cons`, `pop = head`).  As
in `closureGo`, the `while` loop carries fuel and the wrapper's fuel is
sufficient. -/
def dfaGo (nfa_no_e : TMap) (alphabet : List Symb) :
    Nat → List (Finset St) → List (Finset St) → DMap → List (Finset St) × DMap
  | _, sts, [], tr => (sts, tr)
  | 0, sts, _ :: _, tr => (sts, tr)
  | fuel + 1, sts, S :: rest, tr =>
      let r := alphabet.foldl (dfaSymStep nfa_no_e S) (sts, rest, tr)
      dfaGo nfa_no_e alphabet fuel r.1 r.2.1 r.2.2

/-- Sufficient fuel for `dfaGo`: every composite state the loop can append is
a subset of `allTargets nfa_no_e`, so at most `2 ^ card` appends happen. -/
def dfaFuel (nfa_no_e : TMap) : Nat :=
  (allTargets nfa_no_e).powerset.card + 1

/-- `nfa_to_dfa(states, alphabet, nfa_no_e, start_state, final_states)`
(lines 41-64), returning `(dfa_states, dfa_trans, dfa_start, dfa_finals)`.
As in the source, the `states` parameter is unused. -/
def nfa_to_dfa (states : List St) (alphabet : List Symb) (nfa_no_e : TMap)
    (start_state : St) (final_states : Finset St) :
    List (Finset St) × DMap × Finset St × Finset (Finset St) :=
  let dfa_start : Finset St := {start_state}
  let r := dfaGo nfa_no_e alphabet (dfaFuel nfa_no_e) [dfa_start] [dfa_start] []
  let dfa_finals : Finset (Finset St) :=
    r.1.foldl (fun acc S => if ∃ s ∈ S, s ∈ final_states then insert S acc else acc) ∅
  (r.1, r.2, dfa_start, dfa_finals)

/-- The conversion pipeline as run by the script (lines 209-210):
`remove_epsilon` followed by `nfa_to_dfa` on the ε-free NFA and its finals. -/
def pipeline (states : List St) (alphabet : List Symb) (enfa : TMap)
    (start_state : St) (final_states : List St) :
    List (Finset St) × DMap × Finset St × Finset (Finset St) :=
  let r := remove_epsilon states alphabet enfa start_state final_states
  nfa_to_dfa states alphabet r.2.1 start_state r.2.2

/-- `label_of(S) = "".join(sorted(S))` (lines 88-89; the same expression is
recomputed inline at lines 134 and 145). -/
def label_of (S : Finset St) : String :=
  String.join (sortedList S)

/-- Follows the spec's words: `t` is reachable from `s` by zero or more
ε-transitions of `enfa`. -/
def EpsReach (enfa : TMap) (s t : St) : Prop :=
  Relation.ReflTransGen (fun x y => y ∈ dictGetD enfa (x, "ε")) s t

/-- Written from the spec's ordering contract (claim C5): one alphabet step of
a breadth-first discovery that records composite states in the order first
enqueued. -/
def bfsSymStep (nfa_no_e : TMap) (S : Finset St)
    (acc : List (Finset St) × List (Finset St)) (a : Symb) :
    List (Finset St) × List (Finset St) :=
  if a = "ε" then acc
  else
    let nxt := S.sup (fun s => dictGetD nfa_no_e (s, a))
    if nxt.Nonempty then
      if nxt ∈ acc.1 then acc else (acc.1 ++ [nxt], acc.2 ++ [nxt])
    else acc

/-- Written from the spec's ordering contract: breadth-first (FIFO) worklist
traversal; the queue is dequeued at the head and enqueued at the tail. -/
def bfsGo (nfa_no_e : TMap) (alphabet : List Symb) :
    Nat → List (Finset St) → List (Finset St) → List (Finset St)
  | _, order, [] => order
  | 0, order, _ :: _ => order
  | fuel + 1, order, S :: queue =>
      let r := alphabet.foldl (bfsSymStep nfa_no_e S) (order, queue)
      bfsGo nfa_no_e alphabet fuel r.1 r.2

/-- The order in which composite states are first enqueued during a
breadth-first (FIFO) traversal from `{start_state}`, processing the declared
alphabet in declared order — the spec's claimed enumeration order. -/
def bfsDiscoveryOrder (nfa_no_e : TMap) (alphabet : List Symb)
    (start_state : St) : List (Finset St) :=
  bfsGo nfa_no_e alphabet (dfaFuel nfa_no_e) [{start_state}] [{start_state}]

/-- One alphabet step of a depth-first discovery: as `bfsSymStep`, except the
worklist is a stack pushed at the head. -/
def dfsSymStep (nfa_no_e : TMap) (S : Finset St)
    (acc : List (Finset St) × List (Finset St)) (a : Symb) :
    List (Finset St) × List (Finset St) :=
  if a = "ε" then acc
  else
    let nxt := S.sup (fun s => dictGetD nfa_no_e (s, a))
    if nxt.Nonempty then
      if nxt ∈ acc.1 then acc else (acc.1 ++ [nxt], nxt :: acc.2)
    else acc

/-- Depth-first (LIFO) worklist traversal recording first-discovery order. -/
def dfsGo (nfa_no_e : TMap) (alphabet : List Symb) :
    Nat → List (Finset St) → List (Finset St) → List (Finset St)
  | _, order, [] => order
  | 0, order, _ :: _ => order
  | fuel + 1, order, S :: stack =>
      let r := alphabet.foldl (dfsSymStep nfa_no_e S) (order, stack)
      dfsGo nfa_no_e alphabet fuel r.1 r.2

/-- The order in which composite states are first pushed during a depth-first
(LIFO) traversal from `{start_state}`, processing the declared alphabet in
declared order. -/
def dfsDiscoveryOrder (nfa_no_e : TMap) (alphabet : List Symb)
    (start_state : St) : List (Finset St) :=
  dfsGo nfa_no_e alphabet (dfaFuel nfa_no_e) [{start_state}] [{start_state}]

/-- Count of composite states over `allTargets nfa_no_e` not yet discovered;
the potential function bounding the work of `dfaGo`. -/
def undiscovered (nfa_no_e : TMap) (sts : List (Finset St)) : Nat :=
  ((allTargets nfa_no_e).powerset.filter (fun X => X ∉ sts)).card

-- Concrete automata used by witnesses and counterexamples.

/-- Spec Example 1: transitions of the ε-free two-state automaton. -/
def enfaEx1 : TMap :=
  [(("q0", "a"), {"q0", "q1"}), (("q0", "b"), {"q0"}), (("q1", "b"), {"q1"})]

/-- Spec Example 2: the ε-cycle automaton `δ(q0,ε)={q1}`, `δ(q1,ε)={q0}`,
`δ(q0,a)={q0}`. -/
def enfaEx2 : TMap :=
  [(("q0", "ε"), {"q1"}), (("q1", "ε"), {"q0"}), (("q0", "a"), {"q0"})]

/-- Double-closure example: moving from `q0` on `a` lands on `q1`, which has
its own outgoing ε-transition to `q2`. -/
def enfaEx3 : TMap :=
  [(("q0", "a"), {"q1"}), (("q1", "ε"), {"q2"})]

/-- Branching ε-free automaton on which depth-first and breadth-first
discovery orders differ. -/
def enfaEx4 : TMap :=
  [(("q0", "a"), {"q1"}), (("q0", "b"), {"q2"}),
   (("q1", "a"), {"q3"}), (("q2", "a"), {"q4"})]

-- ### Dictionary lemmas

theorem dictGet_mem {κ α : Type} [DecidableEq κ] {d : List (κ × α)} {k : κ} {v : α}
    (h : dictGet d k = some v) : (k, v) ∈ d := by
  induction d with
  | nil => simp [dictGet] at h
  | cons p rest ih =>
      obtain ⟨k', v'⟩ := p
      simp only [dictGet] at h
      split at h
      · next heq => cases h; exact heq ▸ List.mem_cons_self _ _
      · exact List.mem_cons_of_mem _ (ih h)

theorem dictGet_eq_none {κ α : Type} [DecidableEq κ] {d : List (κ × α)} {k : κ}
    (h : ∀ p ∈ d, p.1 ≠ k) : dictGet d k = none := by
  induction d with
  | nil => rfl
  | cons p rest ih =>
      obtain ⟨k', v'⟩ := p
      simp only [dictGet]
      rw [if_neg (h (k', v') (List.mem_cons_self _ _))]
      exact ih fun q hq => h q (List.mem_cons_of_mem _ hq)

theorem dictGet_append_isSome {κ α : Type} [DecidableEq κ] {d : List (κ × α)} {k : κ}
    (h : (dictGet d k).isSome) (pre : List (κ × α)) : (dictGet (pre ++ d) k).isSome := by
  induction pre with
  | nil => exact h
  | cons p rest ih =>
      obtain ⟨k', v'⟩ := p
      simp only [List.cons_append, dictGet]
      split
      · rfl
      · exact ih

-- ### sortedList lemmas

theorem sortedList_coe (s : Finset String) : (sortedList s : Multiset String) = s.val := by
  rcases s with ⟨m, nd⟩
  induction m using Quot.inductionOn with
  | h l => exact Quot.sound (List.perm_insertionSort strLe l)

theorem mem_sortedList {s : Finset String} {x : String} : x ∈ sortedList s ↔ x ∈ s := by
  rw [← Multiset.mem_coe, sortedList_coe]
  exact Iff.rfl

theorem length_sortedList (s : Finset String) : (sortedList s).length = s.card := by
  have := congrArg Multiset.card (sortedList_coe s)
  simpa using this

-- ### allTargets lemmas

theorem subset_allTargets {d : TMap} {p : (St × Symb) × Finset St} (hp : p ∈ d) :
    p.2 ⊆ allTargets d := by
  induction d with
  | nil => cases hp
  | cons q rest ih =>
      rcases List.mem_cons.1 hp with h | h
      · subst h
        exact Finset.subset_union_left
      · exact subset_trans (ih h) Finset.subset_union_right

theorem dictGetD_subset_allTargets (d : TMap) (k : St × Symb) :
    dictGetD d k ⊆ allTargets d := by
  unfold dictGetD
  cases h : dictGet d k with
  | none => simp
  | some v =>
      simpa using subset_allTargets (dictGet_mem h)

theorem exists_of_mem_dictGetD {d : TMap} {k : St × Symb} {x : St}
    (h : x ∈ dictGetD d k) : ∃ p ∈ d, x ∈ p.2 := by
  unfold dictGetD at h
  cases hd : dictGet d k with
  | none => rw [hd] at h; simp at h
  | some v =>
      rw [hd] at h
      exact ⟨(k, v), dictGet_mem hd, h⟩

-- ### Closure loop invariants

theorem closureGo_nil (enfa : TMap) (fuel : Nat) (cl : Finset St) :
    closureGo enfa fuel [] cl = cl := by
  cases fuel <;> rfl

theorem closureGo_subset (enfa : TMap) :
    ∀ (fuel : Nat) (stack : List St) (cl : Finset St), cl ⊆ closureGo enfa fuel stack cl := by
  intro fuel
  induction fuel with
  | zero => intro stack cl; cases stack <;> simp [closureGo]
  | succ n ih =>
      intro stack cl
      cases stack with
      | nil => simp [closureGo]
      | cons s rest =>
          simp only [closureGo]
          exact subset_trans Finset.subset_union_left (ih _ _)

theorem closureGo_sound (enfa : TMap) :
    ∀ (fuel : Nat) (stack : List St) (cl : Finset St),
      (∀ x ∈ stack, x ∈ cl) →
      ∀ t ∈ closureGo enfa fuel stack cl, ∃ c ∈ cl, EpsReach enfa c t := by
  intro fuel
  induction fuel with
  | zero =>
      intro stack cl _ t ht
      cases stack <;> simp only [closureGo] at ht <;>
        exact ⟨t, ht, Relation.ReflTransGen.refl⟩
  | succ n ih =>
      intro stack cl hstack t ht
      cases stack with
      | nil =>
          simp only [closureGo] at ht
          exact ⟨t, ht, Relation.ReflTransGen.refl⟩
      | cons s rest =>
          simp only [closureGo] at ht
          have hstack' : ∀ x ∈ sortedList ((dictGetD enfa (s, "ε")).filter
              (fun nxt => nxt ∉ cl)) ++ rest,
              x ∈ cl ∪ (dictGetD enfa (s, "ε")).filter (fun nxt => nxt ∉ cl) := by
            intro x hx
            rcases List.mem_append.1 hx with h | h
            · exact Finset.mem_union_right _ (mem_sortedList.1 h)
            · exact Finset.mem_union_left _ (hstack x (List.mem_cons_of_mem _ h))
          obtain ⟨c, hc, hreach⟩ := ih _ _ hstack' t ht
          rcases Finset.mem_union.1 hc with h | h
          · exact ⟨c, h, hreach⟩
          · have hstep : c ∈ dictGetD enfa (s, "ε") := (Finset.mem_filter.1 h).1
            exact ⟨s, hstack s (List.mem_cons_self _ _),
              Relation.ReflTransGen.head hstep hreach⟩

theorem closureGo_sat (enfa : TMap) :
    ∀ (fuel : Nat) (stack : List St) (cl : Finset St),
      stack.length + ((allTargets enfa) \ cl).card ≤ fuel →
      (∀ c ∈ cl, c ∉ stack → ∀ y ∈ dictGetD enfa (c, "ε"), y ∈ cl) →
      ∀ c ∈ closureGo enfa fuel stack cl, ∀ y ∈ dictGetD enfa (c, "ε"),
        y ∈ closureGo enfa fuel stack cl := by
  intro fuel
  induction fuel with
  | zero =>
      intro stack cl hfuel hsat c hc y hy
      cases stack with
      | nil =>
          rw [closureGo_nil] at hc ⊢
          exact hsat c hc (List.not_mem_nil c) y hy
      | cons s rest => simp at hfuel
  | succ n ih =>
      intro stack cl hfuel hsat c hc y hy
      cases stack with
      | nil =>
          rw [closureGo_nil] at hc ⊢
          exact hsat c hc (List.not_mem_nil c) y hy
      | cons s rest =>
          simp only [closureGo] at hc ⊢
          set new := (dictGetD enfa (s, "ε")).filter (fun nxt => nxt ∉ cl) with hnew
          have hsub : new ⊆ (allTargets enfa) \ cl := by
            intro x hx
            have := Finset.mem_filter.1 hx
            exact Finset.mem_sdiff.2
              ⟨dictGetD_subset_allTargets enfa (s, "ε") this.1, this.2⟩
          have hsdiff : (allTargets enfa) \ (cl ∪ new) = ((allTargets enfa) \ cl) \ new := by
            ext x
            simp only [Finset.mem_sdiff, Finset.mem_union]
            tauto
          have hcard : ((allTargets enfa) \ (cl ∪ new)).card
              = ((allTargets enfa) \ cl).card - new.card := by
            rw [hsdiff, Finset.card_sdiff hsub]
          have hle : new.card ≤ ((allTargets enfa) \ cl).card := Finset.card_le_card hsub
          refine ih (sortedList new ++ rest) (cl ∪ new) ?_ ?_ c hc y hy
          · rw [List.length_append, length_sortedList, hcard]
            simp only [List.length_cons] at hfuel
            omega
          · intro c' hc' hc'n y' hy'
            rcases Finset.mem_union.1 hc' with h | h
            · by_cases hcs : c' = s
              · subst hcs
                by_cases hycl : y' ∈ cl
                · exact Finset.mem_union_left _ hycl
                · exact Finset.mem_union_right _ (Finset.mem_filter.2 ⟨hy', hycl⟩)
              · have hrest : c' ∉ rest := fun hr =>
                  hc'n (List.mem_append.2 (Or.inr hr))
                have : c' ∉ s :: rest := by
                  intro hm
                  rcases List.mem_cons.1 hm with h' | h'
                  · exact hcs h'
                  · exact hrest h'
                exact Finset.mem_union_left _ (hsat c' h this y' hy')
            · exact absurd (List.mem_append.2 (Or.inl (mem_sortedList.2 h))) hc'n

theorem closureGo_fuel (enfa : TMap) :
    ∀ (fuel fuel' : Nat) (stack : List St) (cl : Finset St),
      stack.length + ((allTargets enfa) \ cl).card ≤ fuel →
      stack.length + ((allTargets enfa) \ cl).card ≤ fuel' →
      closureGo enfa fuel stack cl = closureGo enfa fuel' stack cl := by
  intro fuel
  induction fuel with
  | zero =>
      intro fuel' stack cl hfuel _
      cases stack with
      | nil => rw [closureGo_nil, closureGo_nil]
      | cons s rest => simp only [List.length_cons] at hfuel; omega
  | succ n ih =>
      intro fuel' stack cl hfuel hfuel'
      cases stack with
      | nil => rw [closureGo_nil, closureGo_nil]
      | cons s rest =>
          cases fuel' with
          | zero => simp only [List.length_cons] at hfuel'; omega
          | succ m =>
              simp only [closureGo]
              set new := (dictGetD enfa (s, "ε")).filter (fun nxt => nxt ∉ cl) with hnew
              have hsub : new ⊆ (allTargets enfa) \ cl := by
                intro x hx
                have := Finset.mem_filter.1 hx
                exact Finset.mem_sdiff.2
                  ⟨dictGetD_subset_allTargets enfa (s, "ε") this.1, this.2⟩
              have hsdiff : (allTargets enfa) \ (cl ∪ new)
                  = ((allTargets enfa) \ cl) \ new := by
                ext x
                simp only [Finset.mem_sdiff, Finset.mem_union]
                tauto
              have hcard : ((allTargets enfa) \ (cl ∪ new)).card
                  = ((allTargets enfa) \ cl).card - new.card := by
                rw [hsdiff, Finset.card_sdiff hsub]
              have hle : new.card ≤ ((allTargets enfa) \ cl).card :=
                Finset.card_le_card hsub
              refine ih m (sortedList new ++ rest) (cl ∪ new) ?_ ?_
              · rw [List.length_append, length_sortedList, hcard]
                simp only [List.length_cons] at hfuel
                omega
              · rw [List.length_append, length_sortedList, hcard]
                simp only [List.length_cons] at hfuel'
                omega

-- ### Characterization of the ε-closure

theorem mem_epsilon_closure {enfa : TMap} {s t : St} :
    t ∈ epsilon_closure_of s enfa ↔ EpsReach enfa s t := by
  constructor
  · intro ht
    obtain ⟨c, hc, h⟩ :=
      closureGo_sound enfa ((allTargets enfa).card + 1) [s] {s}
        (by intro x hx; simpa using List.mem_singleton.1 hx) t ht
    rwa [Finset.mem_singleton.1 hc] at h
  · intro h
    unfold epsilon_closure_of
    induction h with
    | refl => exact closureGo_subset enfa _ [s] {s} (Finset.mem_singleton_self s)
    | tail hab hbc ih =>
        refine closureGo_sat enfa ((allTargets enfa).card + 1) [s] {s} ?_ ?_ _ ih _ hbc
        · have : ((allTargets enfa) \ {s}).card ≤ (allTargets enfa).card :=
            Finset.card_le_card (Finset.sdiff_subset)
          simp only [List.length_cons, List.length_nil]
          omega
        · intro c hc hcn y hy
          exact absurd (List.mem_singleton.2 (Finset.mem_singleton.1 hc)) hcn

theorem epsilon_closure_refl (s : St) (enfa : TMap) : s ∈ epsilon_closure_of s enfa :=
  mem_epsilon_closure.2 Relation.ReflTransGen.refl

theorem epsilon_closure_trans {enfa : TMap} {s t : St}
    (h : t ∈ epsilon_closure_of s enfa) :
    epsilon_closure_of t enfa ⊆ epsilon_closure_of s enfa := fun _ hu =>
  mem_epsilon_closure.2
    ((mem_epsilon_closure.1 h).trans (mem_epsilon_closure.1 hu))

theorem epsReach_mem {enfa : TMap} {states : List St}
    (hdst : ∀ p ∈ enfa, ∀ x ∈ p.2, x ∈ states) {s t : St}
    (hs : s ∈ states) (h : EpsReach enfa s t) : t ∈ states := by
  induction h with
  | refl => exact hs
  | tail _ hbc _ =>
      obtain ⟨p, hp, hm⟩ := exists_of_mem_dictGetD hbc
      exact hdst p hp _ hm

theorem epsReach_bound {enfa : TMap} {s t : St} (h : EpsReach enfa s t) :
    t ∈ insert s (allTargets enfa) := by
  induction h with
  | refl => exact Finset.mem_insert_self _ _
  | tail _ hbc _ =>
      exact Finset.mem_insert_of_mem (dictGetD_subset_allTargets enfa _ hbc)

theorem epsilon_closure_subset_states {enfa : TMap} {states : List St}
    (hdst : ∀ p ∈ enfa, ∀ x ∈ p.2, x ∈ states) {s : St} (hs : s ∈ states) :
    ∀ x ∈ epsilon_closure_of s enfa, x ∈ states := fun _ hx =>
  epsReach_mem hdst hs (mem_epsilon_closure.1 hx)

-- ### remove_epsilon: characterization of the produced dictionary and finals

theorem remove_epsilon_def (states : List St) (alphabet : List Symb) (enfa : TMap)
    (start_state : St) (final_states : List St) :
    remove_epsilon states alphabet enfa start_state final_states
      = (fun s => epsilon_closure_of s enfa,
         (states.foldl (stateStep enfa (fun s => epsilon_closure_of s enfa)
            alphabet final_states) ([], ∅)).1,
         (states.foldl (stateStep enfa (fun s => epsilon_closure_of s enfa)
            alphabet final_states) ([], ∅)).2) := rfl

theorem symStep_entry {enfa : TMap} {cls : St → Finset St} {s : St} {t : TMap}
    {a : Symb} {e : (St × Symb) × Finset St} (he : e ∈ symStep enfa cls s t a) :
    e ∈ t ∨ (a ≠ "ε" ∧ (moveOf enfa cls s a).Nonempty
      ∧ e = ((s, a), destOf enfa cls s a)) := by
  unfold symStep at he
  split at he
  · exact Or.inl he
  · next hne =>
      split at he
      · next hmv =>
          rcases List.mem_cons.1 he with h | h
          · exact Or.inr ⟨hne, hmv, h⟩
          · exact Or.inl h
      · exact Or.inl he

theorem foldl_symStep_entry {enfa : TMap} {cls : St → Finset St} {s : St} :
    ∀ (alphabet : List Symb) (t : TMap) (e : (St × Symb) × Finset St),
      e ∈ alphabet.foldl (symStep enfa cls s) t →
      e ∈ t ∨ ∃ a ∈ alphabet, a ≠ "ε" ∧ (moveOf enfa cls s a).Nonempty
        ∧ e = ((s, a), destOf enfa cls s a) := by
  intro alphabet
  induction alphabet with
  | nil => intro t e he; exact Or.inl he
  | cons a rest ih =>
      intro t e he
      rcases ih _ e he with h | ⟨a', ha', h⟩
      · rcases symStep_entry h with h' | h'
        · exact Or.inl h'
        · exact Or.inr ⟨a, List.mem_cons_self _ _, h'⟩
      · exact Or.inr ⟨a', List.mem_cons_of_mem _ ha', h⟩

theorem foldl_stateStep_entry {enfa : TMap} {cls : St → Finset St}
    {alphabet : List Symb} {final_states : List St} :
    ∀ (states : List St) (acc : TMap × Finset St) (e : (St × Symb) × Finset St),
      e ∈ (states.foldl (stateStep enfa cls alphabet final_states) acc).1 →
      e ∈ acc.1 ∨ ∃ s ∈ states, ∃ a ∈ alphabet, a ≠ "ε"
        ∧ (moveOf enfa cls s a).Nonempty ∧ e = ((s, a), destOf enfa cls s a) := by
  intro states
  induction states with
  | nil => intro acc e he; exact Or.inl he
  | cons s rest ih =>
      intro acc e he
      rcases ih _ e he with h | ⟨s', hs', h⟩
      · rcases foldl_symStep_entry alphabet acc.1 e h with h' | ⟨a, ha, h'⟩
        · exact Or.inl h'
        · exact Or.inr ⟨s, List.mem_cons_self _ _, a, ha, h'⟩
      · exact Or.inr ⟨s', List.mem_cons_of_mem _ hs', h⟩

theorem symStep_pre (enfa : TMap) (cls : St → Finset St) (s : St) (t : TMap) (a : Symb) :
    ∃ pre, symStep enfa cls s t a = pre ++ t := by
  unfold symStep
  split
  · exact ⟨[], rfl⟩
  · split
    · exact ⟨[((s, a), destOf enfa cls s a)], rfl⟩
    · exact ⟨[], rfl⟩

theorem foldl_symStep_pre (enfa : TMap) (cls : St → Finset St) (s : St) :
    ∀ (alphabet : List Symb) (t : TMap),
      ∃ pre, alphabet.foldl (symStep enfa cls s) t = pre ++ t := by
  intro alphabet
  induction alphabet with
  | nil => exact fun t => ⟨[], rfl⟩
  | cons a rest ih =>
      intro t
      obtain ⟨pre0, h0⟩ := symStep_pre enfa cls s t a
      obtain ⟨pre1, h1⟩ := ih (symStep enfa cls s t a)
      exact ⟨pre1 ++ pre0, by rw [List.foldl_cons, h1, h0, List.append_assoc]⟩

theorem foldl_stateStep_pre (enfa : TMap) (cls : St → Finset St)
    (alphabet : List Symb) (final_states : List St) :
    ∀ (states : List St) (acc : TMap × Finset St),
      ∃ pre, (states.foldl (stateStep enfa cls alphabet final_states) acc).1
        = pre ++ acc.1 := by
  intro states
  induction states with
  | nil => exact fun acc => ⟨[], rfl⟩
  | cons s rest ih =>
      intro acc
      obtain ⟨pre1, h1⟩ := ih (stateStep enfa cls alphabet final_states acc s)
      obtain ⟨pre0, h0⟩ := foldl_symStep_pre enfa cls s alphabet acc.1
      refine ⟨pre1 ++ pre0, ?_⟩
      rw [List.foldl_cons, h1]
      have : (stateStep enfa cls alphabet final_states acc s).1
          = alphabet.foldl (symStep enfa cls s) acc.1 := rfl
      rw [this, h0, List.append_assoc]

theorem foldl_symStep_isSome {enfa : TMap} {cls : St → Finset St} {s : St} {a : Symb}
    (hne : a ≠ "ε") (hmv : (moveOf enfa cls s a).Nonempty) :
    ∀ (alphabet : List Symb), a ∈ alphabet → ∀ (t : TMap),
      (dictGet (alphabet.foldl (symStep enfa cls s) t) (s, a)).isSome := by
  intro alphabet
  induction alphabet with
  | nil => intro ha; cases ha
  | cons b rest ih =>
      intro ha t
      rcases List.mem_cons.1 ha with h | h
      · subst h
        rw [List.foldl_cons]
        obtain ⟨pre, hpre⟩ := foldl_symStep_pre enfa cls s rest (symStep enfa cls s t a)
        rw [hpre]
        refine dictGet_append_isSome ?_ pre
        unfold symStep
        rw [if_neg hne, if_pos hmv]
        simp [dictGet]
      · rw [List.foldl_cons]
        exact ih h _

theorem foldl_stateStep_isSome {enfa : TMap} {cls : St → Finset St}
    {alphabet : List Symb} {final_states : List St} {s : St} {a : Symb}
    (ha : a ∈ alphabet) (hne : a ≠ "ε") (hmv : (moveOf enfa cls s a).Nonempty) :
    ∀ (states : List St), s ∈ states → ∀ (acc : TMap × Finset St),
      (dictGet (states.foldl (stateStep enfa cls alphabet final_states) acc).1
        (s, a)).isSome := by
  intro states
  induction states with
  | nil => intro hs; cases hs
  | cons u rest ih =>
      intro hs acc
      rcases List.mem_cons.1 hs with h | h
      · subst h
        rw [List.foldl_cons]
        obtain ⟨pre, hpre⟩ :=
          foldl_stateStep_pre enfa cls alphabet final_states rest
            (stateStep enfa cls alphabet final_states acc s)
        rw [hpre]
        refine dictGet_append_isSome ?_ pre
        have : (stateStep enfa cls alphabet final_states acc s).1
            = alphabet.foldl (symStep enfa cls s) acc.1 := rfl
        rw [this]
        exact foldl_symStep_isSome hne hmv alphabet ha acc.1
      · rw [List.foldl_cons]
        exact ih h _

/-- The ε-free transition dictionary built by `remove_epsilon`, characterized
at every declared state and non-ε alphabet symbol. -/
theorem removeEps_lookup {states : List St} {alphabet : List Symb} {enfa : TMap}
    {start_state : St} {final_states : List St} {s : St} {a : Symb}
    (hs : s ∈ states) (ha : a ∈ alphabet) (hne : a ≠ "ε") :
    dictGet (remove_epsilon states alphabet enfa start_state final_states).2.1 (s, a)
      = if (moveOf enfa (fun u => epsilon_closure_of u enfa) s a).Nonempty
        then some (destOf enfa (fun u => epsilon_closure_of u enfa) s a)
        else none := by
  rw [remove_epsilon_def]
  set cls := fun u => epsilon_closure_of u enfa with hcls
  by_cases hmv : (moveOf enfa cls s a).Nonempty
  · rw [if_pos hmv]
    have hsome := @foldl_stateStep_isSome enfa cls alphabet final_states s a
      ha hne hmv states hs ([], ∅)
    obtain ⟨v, hv⟩ := Option.isSome_iff_exists.1 hsome
    rcases foldl_stateStep_entry states ([], ∅) _ (dictGet_mem hv) with h | h
    · cases h
    · obtain ⟨s', _, a', _, _, _, heq⟩ := h
      have hk : (s, a) = (s', a') := congrArg Prod.fst heq
      have hval : v = destOf enfa cls s' a' := congrArg Prod.snd heq
      cases hk
      rw [hv, hval]
  · rw [if_neg hmv]
    cases hd : dictGet ((states.foldl (stateStep enfa cls alphabet final_states)
        ([], ∅)).1) (s, a) with
    | none => rfl
    | some v =>
        rcases foldl_stateStep_entry states ([], ∅) _ (dictGet_mem hd) with h | h
        · cases h
        · obtain ⟨s', _, a', _, _, hmv', heq⟩ := h
          have hk : (s, a) = (s', a') := congrArg Prod.fst heq
          cases hk
          exact absurd hmv' hmv

theorem foldl_stateStep_snd {enfa : TMap} {cls : St → Finset St}
    {alphabet : List Symb} {final_states : List St} :
    ∀ (states : List St) (acc : TMap × Finset St),
      (states.foldl (stateStep enfa cls alphabet final_states) acc).2
        = states.foldl
            (fun F s => if ∃ f ∈ final_states, f ∈ cls s then insert s F else F)
            acc.2 := by
  intro states
  induction states with
  | nil => intro acc; rfl
  | cons s rest ih =>
      intro acc
      rw [List.foldl_cons, List.foldl_cons, ih]
      rfl

theorem mem_foldl_finals {cls : St → Finset St} {final_states : List St} :
    ∀ (states : List St) (F : Finset St) (s : St),
      s ∈ states.foldl
          (fun F u => if ∃ f ∈ final_states, f ∈ cls u then insert u F else F) F
        ↔ s ∈ F ∨ (s ∈ states ∧ ∃ f ∈ final_states, f ∈ cls s) := by
  intro states
  induction states with
  | nil => intro F s; simp
  | cons x rest ih =>
      intro F s
      rw [List.foldl_cons, ih]
      by_cases hx : ∃ f ∈ final_states, f ∈ cls x
      · rw [if_pos hx]
        by_cases hsx : s = x
        · subst hsx
          simp only [Finset.mem_insert, List.mem_cons]
          tauto
        · simp only [Finset.mem_insert, List.mem_cons]
          tauto
      · rw [if_neg hx]
        by_cases hsx : s = x
        · subst hsx
          simp only [List.mem_cons]
          constructor
          · intro h
            rcases h with h | ⟨hm, hf⟩
            · exact Or.inl h
            · exact Or.inr ⟨Or.inr hm, hf⟩
          · intro h
            rcases h with h | ⟨hm, hf⟩
            · exact Or.inl h
            · rcases hm with hm | hm
              · exact absurd hf hx
              · exact Or.inr ⟨hm, hf⟩
        · simp only [List.mem_cons]
          tauto

/-- Membership in the ε-free final set built by `remove_epsilon`. -/
theorem removeEps_finals {states : List St} {alphabet : List Symb} {enfa : TMap}
    {start_state : St} {final_states : List St} {s : St} :
    s ∈ (remove_epsilon states alphabet enfa start_state final_states).2.2
      ↔ s ∈ states ∧ ∃ f ∈ final_states, f ∈ epsilon_closure_of s enfa := by
  rw [remove_epsilon_def]
  simp only []
  rw [foldl_stateStep_snd states ([], ∅), mem_foldl_finals]
  simp

/-- Every recorded entry of the ε-free dictionary has a non-empty value whose
elements are declared states (given valid input destinations). -/
theorem removeEps_value_good {states : List St} {alphabet : List Symb} {enfa : TMap}
    {start_state : St} {final_states : List St}
    (hdst : ∀ p ∈ enfa, ∀ x ∈ p.2, x ∈ states) :
    ∀ (k : St × Symb) (v : Finset St),
      dictGet (remove_epsilon states alphabet enfa start_state final_states).2.1 k
        = some v →
      v.Nonempty ∧ ∀ x ∈ v, x ∈ states := by
  intro k v hkv
  have hm := dictGet_mem hkv
  rw [remove_epsilon_def] at hm
  rcases foldl_stateStep_entry states ([], ∅) _ hm with h | h
  · cases h
  · obtain ⟨s, _, a, _, _, hmv, heq⟩ := h
    have hval : v = destOf enfa (fun u => epsilon_closure_of u enfa) s a :=
      congrArg Prod.snd heq
    subst hval
    constructor
    · obtain ⟨m, hmmem⟩ := hmv
      exact ⟨m, Finset.mem_sup.2 ⟨m, hmmem, epsilon_closure_refl m enfa⟩⟩
    · intro x hx
      obtain ⟨m, hmmv, hxm⟩ := Finset.mem_sup.1 hx
      obtain ⟨c, _, hmc⟩ := Finset.mem_sup.1 hmmv
      have hmstates : m ∈ states := by
        obtain ⟨p, hp, hmp⟩ := exists_of_mem_dictGetD hmc
        exact hdst p hp m hmp
      exact epsReach_mem hdst hmstates (mem_epsilon_closure.1 hxm)

-- ### remove_epsilon never records ε-keys and ignores ε in the alphabet

theorem removeEps_no_eps_key {states : List St} {alphabet : List Symb} {enfa : TMap}
    {start_state : St} {final_states : List St} (s : St) :
    dictGet (remove_epsilon states alphabet enfa start_state final_states).2.1
      (s, "ε") = none := by
  rw [remove_epsilon_def]
  apply dictGet_eq_none
  intro p hp
  rcases foldl_stateStep_entry states ([], ∅) _ hp with h | h
  · cases h
  · obtain ⟨s', _, a, _, hne, _, heq⟩ := h
    have : p.1 = (s', a) := congrArg Prod.fst heq
    rw [this]
    intro hcontra
    exact hne (congrArg Prod.snd hcontra)

theorem symStep_eps (enfa : TMap) (cls : St → Finset St) (s : St) (t : TMap) :
    symStep enfa cls s t "ε" = t := by
  unfold symStep
  rw [if_pos rfl]

theorem foldl_symStep_filter (enfa : TMap) (cls : St → Finset St) (s : St) :
    ∀ (alphabet : List Symb) (t : TMap),
      alphabet.foldl (symStep enfa cls s) t
        = (alphabet.filter (fun a => a ≠ "ε")).foldl (symStep enfa cls s) t := by
  intro alphabet
  induction alphabet with
  | nil => intro t; rfl
  | cons a rest ih =>
      intro t
      by_cases ha : a = "ε"
      · subst ha
        rw [List.foldl_cons, symStep_eps]
        rw [ih]
        have hf : List.filter (fun a => decide (a ≠ "ε")) ("ε" :: rest)
            = List.filter (fun a => decide (a ≠ "ε")) rest := by
          simp
        rw [hf]
      · rw [List.foldl_cons, ih]
        have : (a :: rest).filter (fun a => a ≠ "ε")
            = a :: rest.filter (fun a => a ≠ "ε") := by
          simp [List.filter_cons, ha]
        rw [this, List.foldl_cons]

/-- `remove_epsilon` treats an alphabet containing ε exactly as the same
alphabet with ε removed: the `continue` at line 29 skips it silently. -/
theorem remove_epsilon_filter_eps (states : List St) (alphabet : List Symb)
    (enfa : TMap) (start_state : St) (final_states : List St) :
    remove_epsilon states alphabet enfa start_state final_states
      = remove_epsilon states (alphabet.filter (fun a => a ≠ "ε")) enfa
          start_state final_states := by
  rw [remove_epsilon_def, remove_epsilon_def]
  have : ∀ (acc : TMap × Finset St),
      states.foldl (stateStep enfa (fun s => epsilon_closure_of s enfa)
        alphabet final_states) acc
      = states.foldl (stateStep enfa (fun s => epsilon_closure_of s enfa)
          (alphabet.filter (fun a => a ≠ "ε")) final_states) acc := by
    induction states with
    | nil => intro acc; rfl
    | cons s rest ih =>
        intro acc
        rw [List.foldl_cons, List.foldl_cons, ← ih]
        congr 1
        unfold stateStep
        rw [foldl_symStep_filter]
  rw [this]

-- ### nfa_to_dfa: decomposition, DFS order, fuel agreement, invariants

theorem nfa_to_dfa_def (states : List St) (alphabet : List Symb) (nfa_no_e : TMap)
    (start_state : St) (final_states : Finset St) :
    nfa_to_dfa states alphabet nfa_no_e start_state final_states
      = ((dfaGo nfa_no_e alphabet (dfaFuel nfa_no_e)
            [{start_state}] [{start_state}] []).1,
         (dfaGo nfa_no_e alphabet (dfaFuel nfa_no_e)
            [{start_state}] [{start_state}] []).2,
         {start_state},
         (dfaGo nfa_no_e alphabet (dfaFuel nfa_no_e)
            [{start_state}] [{start_state}] []).1.foldl
           (fun acc S => if ∃ s ∈ S, s ∈ final_states then insert S acc else acc)
           ∅) := rfl

theorem dfaGo_nil (nfa_no_e : TMap) (alphabet : List Symb) (fuel : Nat)
    (sts : List (Finset St)) (tr : DMap) :
    dfaGo nfa_no_e alphabet fuel sts [] tr = (sts, tr) := by
  cases fuel <;> rfl

theorem dfaSymStep_fst (nfa_no_e : TMap) (S : Finset St)
    (acc : List (Finset St) × List (Finset St) × DMap) (a : Symb) :
    ((dfaSymStep nfa_no_e S acc a).1, (dfaSymStep nfa_no_e S acc a).2.1)
      = dfsSymStep nfa_no_e S (acc.1, acc.2.1) a := by
  by_cases he : a = "ε"
  · simp [dfaSymStep, dfsSymStep, he]
  · by_cases hne : (S.sup (fun s => dictGetD nfa_no_e (s, a))).Nonempty
    · by_cases hmem : S.sup (fun s => dictGetD nfa_no_e (s, a)) ∈ acc.1
      · simp [dfaSymStep, dfsSymStep, he, hne, hmem]
      · simp [dfaSymStep, dfsSymStep, he, hne, hmem]
    · simp [dfaSymStep, dfsSymStep, he, hne]

theorem foldl_dfaSymStep_fst (nfa_no_e : TMap) (S : Finset St) :
    ∀ (alphabet : List Symb) (sts unm : List (Finset St)) (tr : DMap),
      ((alphabet.foldl (dfaSymStep nfa_no_e S) (sts, unm, tr)).1,
       (alphabet.foldl (dfaSymStep nfa_no_e S) (sts, unm, tr)).2.1)
        = alphabet.foldl (dfsSymStep nfa_no_e S) (sts, unm) := by
  intro alphabet
  induction alphabet with
  | nil => intro sts unm tr; rfl
  | cons a rest ih =>
      intro sts unm tr
      rw [List.foldl_cons, List.foldl_cons]
      have h := dfaSymStep_fst nfa_no_e S (sts, unm, tr) a
      rw [← h]
      exact ih (dfaSymStep nfa_no_e S (sts, unm, tr) a).1
        (dfaSymStep nfa_no_e S (sts, unm, tr) a).2.1
        (dfaSymStep nfa_no_e S (sts, unm, tr) a).2.2

theorem dfaGo_fst (nfa_no_e : TMap) (alphabet : List Symb) :
    ∀ (fuel : Nat) (sts unm : List (Finset St)) (tr : DMap),
      (dfaGo nfa_no_e alphabet fuel sts unm tr).1
        = dfsGo nfa_no_e alphabet fuel sts unm := by
  intro fuel
  induction fuel with
  | zero => intro sts unm tr; cases unm <;> rfl
  | succ n ih =>
      intro sts unm tr
      cases unm with
      | nil => rfl
      | cons S rest =>
          simp only [dfaGo, dfsGo]
          rw [ih]
          rw [← foldl_dfaSymStep_fst nfa_no_e S alphabet sts rest tr]

theorem sup_getD_subset (nfa_no_e : TMap) (S : Finset St) (a : Symb) :
    S.sup (fun s => dictGetD nfa_no_e (s, a)) ⊆ allTargets nfa_no_e := by
  intro x hx
  obtain ⟨s, _, h⟩ := Finset.mem_sup.1 hx
  exact dictGetD_subset_allTargets nfa_no_e _ h

theorem undiscovered_append {nfa_no_e : TMap} {sts : List (Finset St)} {X : Finset St}
    (hX : X ⊆ allTargets nfa_no_e) (hnot : X ∉ sts) :
    undiscovered nfa_no_e (sts ++ [X]) + 1 = undiscovered nfa_no_e sts := by
  unfold undiscovered
  have hXf : X ∈ (allTargets nfa_no_e).powerset.filter (fun Y => Y ∉ sts) :=
    Finset.mem_filter.2 ⟨Finset.mem_powerset.2 hX, hnot⟩
  have herase : (allTargets nfa_no_e).powerset.filter (fun Y => Y ∉ sts ++ [X])
      = ((allTargets nfa_no_e).powerset.filter (fun Y => Y ∉ sts)).erase X := by
    ext Y
    simp only [Finset.mem_filter, Finset.mem_erase, List.mem_append,
      List.mem_singleton]
    tauto
  rw [herase, Finset.card_erase_of_mem hXf]
  have hpos : 0 < ((allTargets nfa_no_e).powerset.filter (fun Y => Y ∉ sts)).card :=
    Finset.card_pos.2 ⟨X, hXf⟩
  omega

theorem dfaSymStep_measure (nfa_no_e : TMap) (S : Finset St)
    (acc : List (Finset St) × List (Finset St) × DMap) (a : Symb) :
    (dfaSymStep nfa_no_e S acc a).2.1.length
        + undiscovered nfa_no_e (dfaSymStep nfa_no_e S acc a).1
      ≤ acc.2.1.length + undiscovered nfa_no_e acc.1 := by
  by_cases he : a = "ε"
  · simp [dfaSymStep, he]
  · by_cases hne : (S.sup (fun s => dictGetD nfa_no_e (s, a))).Nonempty
    · by_cases hmem : S.sup (fun s => dictGetD nfa_no_e (s, a)) ∈ acc.1
      · simp [dfaSymStep, he, hne, hmem]
      · simp only [dfaSymStep, if_neg he, if_pos hne, if_neg hmem]
        have := undiscovered_append (sup_getD_subset nfa_no_e S a) hmem
        simp only [List.length_cons]
        omega
    · simp [dfaSymStep, he, hne]

theorem foldl_dfaSymStep_measure (nfa_no_e : TMap) (S : Finset St) :
    ∀ (alphabet : List Symb) (acc : List (Finset St) × List (Finset St) × DMap),
      (alphabet.foldl (dfaSymStep nfa_no_e S) acc).2.1.length
          + undiscovered nfa_no_e (alphabet.foldl (dfaSymStep nfa_no_e S) acc).1
        ≤ acc.2.1.length + undiscovered nfa_no_e acc.1 := by
  intro alphabet
  induction alphabet with
  | nil => intro acc; exact le_refl _
  | cons a rest ih =>
      intro acc
      rw [List.foldl_cons]
      exact le_trans (ih _) (dfaSymStep_measure nfa_no_e S acc a)

theorem dfaGo_fuel (nfa_no_e : TMap) (alphabet : List Symb) :
    ∀ (fuel fuel' : Nat) (sts unm : List (Finset St)) (tr : DMap),
      unm.length + undiscovered nfa_no_e sts ≤ fuel →
      unm.length + undiscovered nfa_no_e sts ≤ fuel' →
      dfaGo nfa_no_e alphabet fuel sts unm tr
        = dfaGo nfa_no_e alphabet fuel' sts unm tr := by
  intro fuel
  induction fuel with
  | zero =>
      intro fuel' sts unm tr hfuel _
      cases unm with
      | nil => rw [dfaGo_nil, dfaGo_nil]
      | cons S rest => simp only [List.length_cons] at hfuel; omega
  | succ n ih =>
      intro fuel' sts unm tr hfuel hfuel'
      cases unm with
      | nil => rw [dfaGo_nil, dfaGo_nil]
      | cons S rest =>
          cases fuel' with
          | zero => simp only [List.length_cons] at hfuel'; omega
          | succ m =>
              simp only [dfaGo]
              have hm : (alphabet.foldl (dfaSymStep nfa_no_e S) (sts, rest, tr)).2.1.length
                  + undiscovered nfa_no_e
                      (alphabet.foldl (dfaSymStep nfa_no_e S) (sts, rest, tr)).1
                  ≤ rest.length + undiscovered nfa_no_e sts :=
                foldl_dfaSymStep_measure nfa_no_e S alphabet (sts, rest, tr)
              simp only [List.length_cons] at hfuel hfuel'
              exact ih m _ _ _ (by omega) (by omega)

theorem sup_getD_good {states : List St} {nfa_no_e : TMap}
    (hmap : ∀ k v, dictGet nfa_no_e k = some v → v.Nonempty ∧ ∀ x ∈ v, x ∈ states)
    (S : Finset St) (a : Symb) :
    ∀ x ∈ S.sup (fun s => dictGetD nfa_no_e (s, a)), x ∈ states := by
  intro x hx
  obtain ⟨s, _, h⟩ := Finset.mem_sup.1 hx
  unfold dictGetD at h
  cases hd : dictGet nfa_no_e (s, a) with
  | none => rw [hd] at h; simp at h
  | some v => rw [hd] at h; exact (hmap _ _ hd).2 x h

theorem dfaSymStep_good {states : List St} {nfa_no_e : TMap}
    (hmap : ∀ k v, dictGet nfa_no_e k = some v → v.Nonempty ∧ ∀ x ∈ v, x ∈ states)
    (S : Finset St) (acc : List (Finset St) × List (Finset St) × DMap) (a : Symb)
    (hsts : ∀ X ∈ acc.1, X.Nonempty ∧ ∀ x ∈ X, x ∈ states)
    (hunm : ∀ X ∈ acc.2.1, X.Nonempty ∧ ∀ x ∈ X, x ∈ states)
    (htr : ∀ k v, dictGet acc.2.2 k = some v → v.Nonempty ∧ ∀ x ∈ v, x ∈ states) :
    (∀ X ∈ (dfaSymStep nfa_no_e S acc a).1, X.Nonempty ∧ ∀ x ∈ X, x ∈ states)
    ∧ (∀ X ∈ (dfaSymStep nfa_no_e S acc a).2.1, X.Nonempty ∧ ∀ x ∈ X, x ∈ states)
    ∧ (∀ k v, dictGet (dfaSymStep nfa_no_e S acc a).2.2 k = some v →
        v.Nonempty ∧ ∀ x ∈ v, x ∈ states) := by
  by_cases he : a = "ε"
  · simp only [dfaSymStep, if_pos he]
    exact ⟨hsts, hunm, htr⟩
  · by_cases hne : (S.sup (fun s => dictGetD nfa_no_e (s, a))).Nonempty
    · have hgood : (S.sup (fun s => dictGetD nfa_no_e (s, a))).Nonempty
          ∧ ∀ x ∈ S.sup (fun s => dictGetD nfa_no_e (s, a)), x ∈ states :=
        ⟨hne, sup_getD_good hmap S a⟩
      have htr' : ∀ k v,
          dictGet (((S, a), S.sup (fun s => dictGetD nfa_no_e (s, a))) :: acc.2.2) k
            = some v → v.Nonempty ∧ ∀ x ∈ v, x ∈ states := by
        intro k v hkv
        simp only [dictGet] at hkv
        split at hkv
        · cases hkv; exact hgood
        · exact htr _ _ hkv
      by_cases hmem : S.sup (fun s => dictGetD nfa_no_e (s, a)) ∈ acc.1
      · simp only [dfaSymStep, if_neg he, if_pos hne, if_pos hmem]
        exact ⟨hsts, hunm, htr'⟩
      · simp only [dfaSymStep, if_neg he, if_pos hne, if_neg hmem]
        refine ⟨?_, ?_, htr'⟩
        · intro X hX
          rcases List.mem_append.1 hX with h | h
          · exact hsts X h
          · rw [List.mem_singleton.1 h]
            exact hgood
        · intro X hX
          rcases List.mem_cons.1 hX with h | h
          · rw [h]
            exact hgood
          · exact hunm X h
    · simp only [dfaSymStep, if_neg he, if_neg hne]
      exact ⟨hsts, hunm, htr⟩

theorem foldl_dfaSymStep_good {states : List St} {nfa_no_e : TMap}
    (hmap : ∀ k v, dictGet nfa_no_e k = some v → v.Nonempty ∧ ∀ x ∈ v, x ∈ states)
    (S : Finset St) :
    ∀ (alphabet : List Symb) (acc : List (Finset St) × List (Finset St) × DMap),
      (∀ X ∈ acc.1, X.Nonempty ∧ ∀ x ∈ X, x ∈ states) →
      (∀ X ∈ acc.2.1, X.Nonempty ∧ ∀ x ∈ X, x ∈ states) →
      (∀ k v, dictGet acc.2.2 k = some v → v.Nonempty ∧ ∀ x ∈ v, x ∈ states) →
      (∀ X ∈ (alphabet.foldl (dfaSymStep nfa_no_e S) acc).1,
          X.Nonempty ∧ ∀ x ∈ X, x ∈ states)
      ∧ (∀ X ∈ (alphabet.foldl (dfaSymStep nfa_no_e S) acc).2.1,
          X.Nonempty ∧ ∀ x ∈ X, x ∈ states)
      ∧ (∀ k v, dictGet (alphabet.foldl (dfaSymStep nfa_no_e S) acc).2.2 k = some v →
          v.Nonempty ∧ ∀ x ∈ v, x ∈ states) := by
  intro alphabet
  induction alphabet with
  | nil => intro acc h1 h2 h3; exact ⟨h1, h2, h3⟩
  | cons a rest ih =>
      intro acc h1 h2 h3
      rw [List.foldl_cons]
      obtain ⟨g1, g2, g3⟩ := dfaSymStep_good hmap S acc a h1 h2 h3
      exact ih _ g1 g2 g3

theorem dfaGo_good {states : List St} {nfa_no_e : TMap} {alphabet : List Symb}
    (hmap : ∀ k v, dictGet nfa_no_e k = some v → v.Nonempty ∧ ∀ x ∈ v, x ∈ states) :
    ∀ (fuel : Nat) (sts unm : List (Finset St)) (tr : DMap),
      (∀ X ∈ sts, X.Nonempty ∧ ∀ x ∈ X, x ∈ states) →
      (∀ X ∈ unm, X.Nonempty ∧ ∀ x ∈ X, x ∈ states) →
      (∀ k v, dictGet tr k = some v → v.Nonempty ∧ ∀ x ∈ v, x ∈ states) →
      (∀ X ∈ (dfaGo nfa_no_e alphabet fuel sts unm tr).1,
          X.Nonempty ∧ ∀ x ∈ X, x ∈ states)
      ∧ (∀ k v, dictGet (dfaGo nfa_no_e alphabet fuel sts unm tr).2 k = some v →
          v.Nonempty ∧ ∀ x ∈ v, x ∈ states) := by
  intro fuel
  induction fuel with
  | zero =>
      intro sts unm tr h1 _ h3
      cases unm <;> exact ⟨h1, h3⟩
  | succ n ih =>
      intro sts unm tr h1 h2 h3
      cases unm with
      | nil => exact ⟨h1, h3⟩
      | cons S rest =>
          simp only [dfaGo]
          obtain ⟨g1, g2, g3⟩ :=
            foldl_dfaSymStep_good hmap S alphabet (sts, rest, tr) h1
              (fun X hX => h2 X (List.mem_cons_of_mem _ hX)) h3
          exact ih _ _ _ g1 g2 g3

-- ### Claim theorems

/-- Claim C1, counterexample.  On spec Example 1 the pipeline does NOT produce
the DFA states `{q0}`, `{q0,q1}`, `{q1}` with finals `{{q0,q1},{q1}}`: the
composite state `{q1}` is never reached from `{q0}` (no transition of the
subset construction yields exactly `{q1}`), so the claimed state set and
final set are wrong. -/
theorem claim_C1_counterexample :
    ({"q1"} : Finset St) ∉ (pipeline ["q0", "q1"] ["a", "b"] enfaEx1 "q0" ["q1"]).1
    ∧ (pipeline ["q0", "q1"] ["a", "b"] enfaEx1 "q0" ["q1"]).1
        ≠ [{"q0"}, {"q0", "q1"}, {"q1"}]
    ∧ (pipeline ["q0", "q1"] ["a", "b"] enfaEx1 "q0" ["q1"]).2.2.2
        ≠ {{"q0", "q1"}, {"q1"}} := by decide

/-- Claim C1, amended: on spec Example 1 the pipeline produces exactly the DFA
states `[{q0}, {q0,q1}]` (in that discovery order) with start `{q0}`,
transitions `δ({q0},a)={q0,q1}`, `δ({q0},b)={q0}`, `δ({q0,q1},a)={q0,q1}`,
`δ({q0,q1},b)={q0,q1}`, no transitions out of any other composite state, and
finals `{{q0,q1}}`. -/
theorem claim_C1_theorem :
    (pipeline ["q0", "q1"] ["a", "b"] enfaEx1 "q0" ["q1"]).1 = [{"q0"}, {"q0", "q1"}]
    ∧ (pipeline ["q0", "q1"] ["a", "b"] enfaEx1 "q0" ["q1"]).2.2.1 = {"q0"}
    ∧ dictGet (pipeline ["q0", "q1"] ["a", "b"] enfaEx1 "q0" ["q1"]).2.1
        ({"q0"}, "a") = some {"q0", "q1"}
    ∧ dictGet (pipeline ["q0", "q1"] ["a", "b"] enfaEx1 "q0" ["q1"]).2.1
        ({"q0"}, "b") = some {"q0"}
    ∧ dictGet (pipeline ["q0", "q1"] ["a", "b"] enfaEx1 "q0" ["q1"]).2.1
        ({"q0", "q1"}, "a") = some {"q0", "q1"}
    ∧ dictGet (pipeline ["q0", "q1"] ["a", "b"] enfaEx1 "q0" ["q1"]).2.1
        ({"q0", "q1"}, "b") = some {"q0", "q1"}
    ∧ dictGet (pipeline ["q0", "q1"] ["a", "b"] enfaEx1 "q0" ["q1"]).2.1
        ({"q1"}, "a") = none
    ∧ dictGet (pipeline ["q0", "q1"] ["a", "b"] enfaEx1 "q0" ["q1"]).2.1
        ({"q1"}, "b") = none
    ∧ (pipeline ["q0", "q1"] ["a", "b"] enfaEx1 "q0" ["q1"]).2.2.2
        = {{"q0", "q1"}} := by decide

/-- Claim C2: for every state `s` in the state set and every non-ε symbol `a`
of the declared alphabet, the ε-free NFA built by `remove_epsilon` has an
entry at `(s, a)` iff `move = ⋃_{c ∈ closure(s)} transitions[(c,a)]` is
non-empty, and the recorded entry equals `⋃_{m ∈ move} closure(m)` (the second
closure pass). -/
theorem claim_C2_theorem (states : List St) (alphabet : List Symb) (enfa : TMap)
    (start_state : St) (final_states : List St) (s : St) (a : Symb)
    (hs : s ∈ states) (ha : a ∈ alphabet) (hne : a ≠ "ε") :
    ((∃ d, dictGet
        (remove_epsilon states alphabet enfa start_state final_states).2.1 (s, a)
          = some d)
      ↔ (moveOf enfa (fun u => epsilon_closure_of u enfa) s a).Nonempty)
    ∧ ∀ d, dictGet
        (remove_epsilon states alphabet enfa start_state final_states).2.1 (s, a)
          = some d →
        d = (moveOf enfa (fun u => epsilon_closure_of u enfa) s a).sup
              (fun m => epsilon_closure_of m enfa) := by
  have h := @removeEps_lookup states alphabet enfa start_state final_states s a
    hs ha hne
  by_cases hmv : (moveOf enfa (fun u => epsilon_closure_of u enfa) s a).Nonempty
  · rw [if_pos hmv] at h
    refine ⟨⟨fun _ => hmv, fun _ => ⟨_, h⟩⟩, fun d hd => ?_⟩
    rw [h] at hd
    exact (Option.some.injEq _ _ ▸ hd).symm ▸ rfl
  · rw [if_neg hmv] at h
    refine ⟨⟨fun hd => ?_, fun hmv' => absurd hmv' hmv⟩, fun d hd => ?_⟩
    · obtain ⟨d, hd⟩ := hd
      rw [h] at hd
      cases hd
    · rw [h] at hd
      cases hd

/-- Claim C2, witness: on the double-closure automaton `enfaEx3`
(`δ(q0,a)={q1}`, `δ(q1,ε)={q2}`), the recorded entry at `(q0,a)` is
`{q1,q2}` — moving lands on `q1` and the second closure pass adds `q2`. -/
theorem claim_C2_witness :
    ({"q1", "q2"} : Finset St)
      = (moveOf enfaEx3 (fun u => epsilon_closure_of u enfaEx3) "q0" "a").sup
          (fun m => epsilon_closure_of m enfaEx3) :=
  ( claim_C2_theorem ["q0", "q1", "q2"] ["a"] enfaEx3 "q0" ["q2"] "q0" "a"
      (by decide) (by decide) (by decide)).2 {"q1", "q2"} (by decide)

/-- Claim C3: `epsilon_closure_of s enfa` is exactly the set of states
reachable from `s` by zero or more ε-transitions; in particular `s` belongs
to its own closure, and the closure of any member is contained in it. -/
theorem claim_C3_theorem (enfa : TMap) (s : St) :
    (∀ t, t ∈ epsilon_closure_of s enfa ↔ EpsReach enfa s t)
    ∧ s ∈ epsilon_closure_of s enfa
    ∧ ∀ t ∈ epsilon_closure_of s enfa,
        epsilon_closure_of t enfa ⊆ epsilon_closure_of s enfa :=
  ⟨fun _ => mem_epsilon_closure, epsilon_closure_refl s enfa,
   fun _ ht => epsilon_closure_trans ht⟩

/-- Claim C3, witness: on the ε-cycle automaton `enfaEx2`, `q0` is in its own
closure and `closure(q1) ⊆ closure(q0)` since `q1 ∈ closure(q0)`. -/
theorem claim_C3_witness :
    "q0" ∈ epsilon_closure_of "q0" enfaEx2
    ∧ epsilon_closure_of "q1" enfaEx2 ⊆ epsilon_closure_of "q0" enfaEx2 :=
  ⟨(claim_C3_theorem enfaEx2 "q0").2.1,
   (claim_C3_theorem enfaEx2 "q0").2.2 "q1" (by decide)⟩

/-- Claim C4: a declared state `s` is marked final by `remove_epsilon` iff
its ε-closure intersects the original final-state set. -/
theorem claim_C4_theorem (states : List St) (alphabet : List Symb) (enfa : TMap)
    (start_state : St) (final_states : List St) (s : St) (hs : s ∈ states) :
    s ∈ (remove_epsilon states alphabet enfa start_state final_states).2.2
      ↔ (epsilon_closure_of s enfa ∩ final_states.toFinset).Nonempty := by
  rw [removeEps_finals]
  constructor
  · rintro ⟨-, f, hf, hfc⟩
    exact ⟨f, Finset.mem_inter.2 ⟨hfc, List.mem_toFinset.2 hf⟩⟩
  · rintro ⟨f, hf⟩
    have h := Finset.mem_inter.1 hf
    exact ⟨hs, f, List.mem_toFinset.1 h.2, h.1⟩

/-- Claim C4, witness: on the ε-cycle automaton `enfaEx2` with finals
`{q1}`, the state `q0` becomes final because `q1 ∈ closure(q0)`. -/
theorem claim_C4_witness :
    "q0" ∈ (remove_epsilon ["q0", "q1"] ["a"] enfaEx2 "q0" ["q1"]).2.2 :=
  ( claim_C4_theorem ["q0", "q1"] ["a"] enfaEx2 "q0" ["q1"] "q0" (by decide)).2
    (by decide)

/-- Claim C5, counterexample: on the branching automaton `enfaEx4` the code's
enumeration order `[{q0},{q1},{q2},{q4},{q3}]` differs from the breadth-first
(FIFO) first-enqueue order `[{q0},{q1},{q2},{q3},{q4}]`: the worklist is
popped at its end (`unmarked.pop()`), i.e. depth-first. -/
theorem claim_C5_counterexample :
    bfsDiscoveryOrder enfaEx4 ["a", "b"] "q0"
      = [{"q0"}, {"q1"}, {"q2"}, {"q3"}, {"q4"}]
    ∧ (nfa_to_dfa ["q0", "q1", "q2", "q3", "q4"] ["a", "b"] enfaEx4 "q0" ∅).1
      = [{"q0"}, {"q1"}, {"q2"}, {"q4"}, {"q3"}]
    ∧ (nfa_to_dfa ["q0", "q1", "q2", "q3", "q4"] ["a", "b"] enfaEx4 "q0" ∅).1
      ≠ bfsDiscoveryOrder enfaEx4 ["a", "b"] "q0" := by decide

/-- Claim C5, amended: for every input, the order in which `nfa_to_dfa`
enumerates the DFA's composite states is the order in which they are first
pushed during a depth-first (LIFO) worklist traversal that processes the
declared alphabet in declared order at each popped state; being a pure
function of the input, this order is identical on every run. -/
theorem claim_C5_theorem (states : List St) (alphabet : List Symb)
    (nfa_no_e : TMap) (start_state : St) (final_states : Finset St) :
    (nfa_to_dfa states alphabet nfa_no_e start_state final_states).1
      = dfsDiscoveryOrder nfa_no_e alphabet start_state := by
  rw [nfa_to_dfa_def]
  exact dfaGo_fst nfa_no_e alphabet (dfaFuel nfa_no_e)
    [{start_state}] [{start_state}] []

/-- Claim C6: under the automaton invariants (declared start state, declared
transition destinations), every composite state produced by the conversion —
each discovered state, the DFA start state, and every transition destination —
is non-empty and consists of declared states only. -/
theorem claim_C6_theorem (states : List St) (alphabet : List Symb) (enfa : TMap)
    (start_state : St) (final_states : List St)
    (hstart : start_state ∈ states)
    (hdst : ∀ p ∈ enfa, ∀ x ∈ p.2, x ∈ states) :
    (∀ S ∈ (pipeline states alphabet enfa start_state final_states).1,
        S.Nonempty ∧ ∀ x ∈ S, x ∈ states)
    ∧ ((pipeline states alphabet enfa start_state final_states).2.2.1.Nonempty
        ∧ ∀ x ∈ (pipeline states alphabet enfa start_state final_states).2.2.1,
            x ∈ states)
    ∧ (∀ k v, dictGet (pipeline states alphabet enfa start_state final_states).2.1 k
          = some v → v.Nonempty ∧ ∀ x ∈ v, x ∈ states) := by
  have hmap := @removeEps_value_good states alphabet enfa start_state final_states hdst
  have hstart_good : ({start_state} : Finset St).Nonempty
      ∧ ∀ x ∈ ({start_state} : Finset St), x ∈ states :=
    ⟨Finset.singleton_nonempty _,
     fun x hx => by rw [Finset.mem_singleton.1 hx]; exact hstart⟩
  have hpip : pipeline states alphabet enfa start_state final_states
      = nfa_to_dfa states alphabet
          (remove_epsilon states alphabet enfa start_state final_states).2.1
          start_state
          (remove_epsilon states alphabet enfa start_state final_states).2.2 := rfl
  rw [hpip, nfa_to_dfa_def]
  obtain ⟨g1, g2⟩ :=
    dfaGo_good hmap
      (dfaFuel (remove_epsilon states alphabet enfa start_state final_states).2.1)
      [{start_state}] [{start_state}] []
      (fun X hX => by rw [List.mem_singleton.1 hX]; exact hstart_good)
      (fun X hX => by rw [List.mem_singleton.1 hX]; exact hstart_good)
      (fun k v hkv => by simp [dictGet] at hkv)
  exact ⟨g1, hstart_good, g2⟩

/-- Claim C6, witness: on spec Example 1, the discovered composite state
`{q0,q1}` is non-empty and contained in the declared state set. -/
theorem claim_C6_witness :
    ({"q0", "q1"} : Finset St).Nonempty
    ∧ ∀ x ∈ ({"q0", "q1"} : Finset St), x ∈ ["q0", "q1"] :=
  ( claim_C6_theorem ["q0", "q1"] ["a", "b"] enfaEx1 "q0" ["q1"]
      (by decide) (by decide)).1 {"q0", "q1"} (by decide)

/-- Claim C7: the closure loop terminates on every input — beyond the
sufficient fuel (one pop per state ever added, each state added at most once)
the result never changes, on cyclic ε-graphs included — and likewise the
subset-construction worklist loop of the full conversion drains within its
fuel bound. -/
theorem claim_C7_theorem :
    (∀ (enfa : TMap) (state : St) (fuel : Nat),
        (allTargets enfa).card + 1 ≤ fuel →
        closureGo enfa fuel [state] {state} = epsilon_closure_of state enfa)
    ∧ (∀ (states : List St) (alphabet : List Symb) (nfa_no_e : TMap)
          (start_state : St) (final_states : Finset St) (fuel : Nat),
        dfaFuel nfa_no_e ≤ fuel →
        dfaGo nfa_no_e alphabet fuel [{start_state}] [{start_state}] []
          = ((nfa_to_dfa states alphabet nfa_no_e start_state final_states).1,
             (nfa_to_dfa states alphabet nfa_no_e start_state final_states).2.1)) := by
  constructor
  · intro enfa state fuel hfuel
    unfold epsilon_closure_of
    have hb : ((allTargets enfa) \ {state}).card ≤ (allTargets enfa).card :=
      Finset.card_le_card Finset.sdiff_subset
    apply closureGo_fuel
    · simp only [List.length_cons, List.length_nil]
      omega
    · simp only [List.length_cons, List.length_nil]
      omega
  · intro states alphabet nfa_no_e start_state final_states fuel hfuel
    rw [nfa_to_dfa_def]
    have hb : undiscovered nfa_no_e [{start_state}]
        ≤ (allTargets nfa_no_e).powerset.card :=
      Finset.card_filter_le _ _
    have hdf : dfaFuel nfa_no_e = (allTargets nfa_no_e).powerset.card + 1 := rfl
    exact dfaGo_fuel nfa_no_e alphabet fuel (dfaFuel nfa_no_e)
      [{start_state}] [{start_state}] []
      (by simp only [List.length_cons, List.length_nil]; omega)
      (by simp only [List.length_cons, List.length_nil]; omega)

/-- Claim C7, witness: the ε-cycle automaton of spec Example 2 is converted
with room to spare — extra fuel does not change either loop's result. -/
theorem claim_C7_witness :
    closureGo enfaEx2 10 ["q0"] {"q0"} = epsilon_closure_of "q0" enfaEx2
    ∧ dfaGo enfaEx1 ["a", "b"] 10 [{"q0"}] [{"q0"}] []
        = ((nfa_to_dfa ["q0", "q1"] ["a", "b"] enfaEx1 "q0" ∅).1,
           (nfa_to_dfa ["q0", "q1"] ["a", "b"] enfaEx1 "q0" ∅).2.1) :=
  ⟨claim_C7_theorem.1 enfaEx2 "q0" 10 (by decide),
   claim_C7_theorem.2 ["q0", "q1"] ["a", "b"] enfaEx1 "q0" ∅ 10 (by decide)⟩

/-- Claim C8, counterexample: with the reserved ε value declared as an
alphabet member, `remove_epsilon` does not fail — it silently skips ε
(line 29's `continue`) and returns the same ε-free NFA and finals as for the
alphabet without ε, recording no `(s, ε)` entry. -/
theorem claim_C8_counterexample :
    ("ε" ∈ ["a", "ε"])
    ∧ (remove_epsilon ["q0", "q1"] ["a", "ε"] [(("q0", "a"), {"q1"})] "q0" ["q1"]).2
        = (remove_epsilon ["q0", "q1"] ["a"] [(("q0", "a"), {"q1"})] "q0" ["q1"]).2
    ∧ dictGet (remove_epsilon ["q0", "q1"] ["a", "ε"] [(("q0", "a"), {"q1"})]
        "q0" ["q1"]).2.1 ("q0", "ε") = none := by decide

/-- Claim C8, amended: `remove_epsilon` raises no error when the declared
alphabet contains the reserved ε value; it behaves exactly as on the alphabet
with ε filtered out, and its output dictionary never carries an ε-key. -/
theorem claim_C8_theorem (states : List St) (alphabet : List Symb) (enfa : TMap)
    (start_state : St) (final_states : List St) :
    remove_epsilon states alphabet enfa start_state final_states
      = remove_epsilon states (alphabet.filter (fun a => a ≠ "ε")) enfa
          start_state final_states
    ∧ ∀ s, dictGet
        (remove_epsilon states alphabet enfa start_state final_states).2.1
          (s, "ε") = none :=
  ⟨remove_epsilon_filter_eps states alphabet enfa start_state final_states,
   fun s => removeEps_no_eps_key s⟩

/-- Claim C9, counterexample: `epsilon_closure_of` never raises on a state
outside the declared state set — it does not even receive the state set; on
the out-of-set state `qz` it successfully returns `{qz}`. -/
theorem claim_C9_counterexample :
    ("qz" ∉ ["q0", "q1"])
    ∧ epsilon_closure_of "qz" enfaEx1 = {"qz"} := by decide

/-- Claim C9, amended: `epsilon_closure_of` performs no membership validation
and succeeds on every queried state (declared or not), returning a closure
that contains the state and is bounded by the states occurring in the
ε-NFA's transition dictionary. -/
theorem claim_C9_theorem (state : St) (enfa : TMap) :
    state ∈ epsilon_closure_of state enfa
    ∧ epsilon_closure_of state enfa ⊆ insert state (allTargets enfa) :=
  ⟨epsilon_closure_refl state enfa,
   fun _ ht => epsReach_bound (mem_epsilon_closure.1 ht)⟩

/-- Claim C10: the canonical label (concatenation of the sorted identifiers)
is not injective — the distinct composite states `{a,bc}` and `{ab,c}` both
render as `abc`. -/
theorem claim_C10_theorem :
    ({"a", "bc"} : Finset St) ≠ {"ab", "c"}
    ∧ label_of {"a", "bc"} = label_of {"ab", "c"}
    ∧ label_of {"a", "bc"} = "abc" := by decide
